import Mathlib

/-!
UserMgmtOp: record synchronisation.

A shallow embedding of the Go packages `fileop` and `usermgmt`.

* Go strings are byte sequences (`GoString`); `strings.Compare` is the
  byte-wise lexicographic three-way comparison.
* A Go `map[string]string` is a finite partial function, modelled as
  `GoString → Option GoString`.
* The record file is its content, a `GoString`. `bufio.Scanner` with the default
  `ScanLines` split and the default buffer, `strings.Split`, `sort.Strings` and
  `sort.StringsAreSorted` are modelled by what the Go library documents.
* The digest `fmt.Sprintf("%x", sha256(password))` is a parameter `sha256`.
* `log.Fatal` and nil-pointer panics end the process; functions that can reach
  them return `Except Fatal _`.
* Goroutines that are forced into one order by their unbuffered channels are
  composed sequentially; the values sent on a channel are returned as lists.
-/

namespace UserMgmtOp

/-! ## Go strings -/

/-- One byte of a Go string. -/
abbrev Byte := Fin 256

/-- A Go `string`: an immutable sequence of bytes. -/
abbrev GoString := List Byte

/-- The byte `','`. -/
def comma : Byte := 44

/-- The byte `'\n'`. -/
def newline : Byte := 10

/-- The byte `'\r'`. -/
def cr : Byte := 13

/-- Go `strings.Compare(a, b)`: `0` if `a == b`, `-1` if `a < b`, `+1` if `a > b`,
comparing byte by byte. -/
def Compare : GoString → GoString → Int
  | [], [] => 0
  | [], _ :: _ => -1
  | _ :: _, [] => 1
  | a :: as, b :: bs => if a < b then -1 else if b < a then 1 else Compare as bs

/-- The Go string order `a < b`, as used by `sort.Strings`. -/
def slt (a b : GoString) : Prop := Compare a b < 0

instance (a b : GoString) : Decidable (slt a b) :=
  inferInstanceAs (Decidable (Compare a b < 0))

/-- The Go string order `a <= b`. -/
def sle (a b : GoString) : Prop := Compare a b ≤ 0

instance (a b : GoString) : Decidable (sle a b) :=
  inferInstanceAs (Decidable (Compare a b ≤ 0))

/-- Go `fmt.Sprintf("%s,%s\n", a, b)`. -/
def Sprintf (a b : GoString) : GoString := a ++ comma :: (b ++ [newline])

/-! ## Package `fileop`: data -/

/-- Go `map[string]string`. -/
abbrev CredMap := GoString → Option GoString

/-- The empty map `map[string]string{}`. -/
def emptyMap : CredMap := fun _ => none

/-- Go `m[k]` in value position: the zero value `""` when the key is absent. -/
def CredMap.index (m : CredMap) (k : GoString) : GoString := (m k).getD []

/-- Go `m[k] = v`. -/
def CredMap.set (m : CredMap) (k v : GoString) : CredMap :=
  fun x => if x = k then some v else m x

/-- Go `delete(m, k)`. -/
def CredMap.delete (m : CredMap) (k : GoString) : CredMap :=
  fun x => if x = k then none else m x

/-- The struct `fileop.UserCred`. -/
structure UserCred where
  Username : GoString
  Password : GoString
deriving DecidableEq, Repr

/-- The constant `USR_ADD`. -/
def USR_ADD : Int := 0

/-- The constant `USR_UPD`. -/
def USR_UPD : Int := 1

/-- The constant `USR_DEL`. -/
def USR_DEL : Int := 2

/-- The struct `fileop.OpSpec`; the two pointers may be nil. -/
structure OpSpec where
  OpType : Int
  OldData : Option UserCred
  NewData : Option UserCred
deriving DecidableEq, Repr

/-- The ways the process ends abnormally. -/
inductive Fatal where
  /-- `log.Fatalf("Record file corrupted")`. -/
  | corrupt
  /-- `log.Fatal(sc.Err())`. -/
  | scanner
  /-- A nil pointer dereference panic. -/
  | nilDeref
deriving DecidableEq, Repr

instance {ε α : Type} [DecidableEq ε] [DecidableEq α] : DecidableEq (Except ε α) :=
  fun x y =>
    match x, y with
    | .ok a, .ok b => if h : a = b then isTrue (by rw [h]) else isFalse (by intro e; cases e; exact h rfl)
    | .error a, .error b =>
      if h : a = b then isTrue (by rw [h]) else isFalse (by intro e; cases e; exact h rfl)
    | .ok _, .error _ => isFalse (by intro e; cases e)
    | .error _, .ok _ => isFalse (by intro e; cases e)

/-! ## `DumpDataToFile`: the merge goroutine -/

/-- The loop `for _, uname := range unameSlc` of the merge goroutine together with
the statements after it. The result lists, in order, the argument pairs of every
`fmt.Sprintf("%s,%s\n", _, _)` whose value is sent on `recChan`; `dataChanged` is the
loop-carried flag. -/
def mergeLoop (credMap : CredMap) (opSPec : OpSpec) :
    List GoString → Bool → Except Fatal (List (GoString × GoString))
  | [], dataChanged =>
    match opSPec.NewData with
    | some nd => if !dataChanged then .ok [(nd.Username, nd.Password)] else .ok []
    | none => .ok []
  | uname :: rest, dataChanged =>
    if opSPec.OpType = USR_ADD then
      match opSPec.NewData with
      | none => .error .nilDeref
      | some nd =>
        if Compare nd.Username uname < 0 ∧ dataChanged = false then
          (mergeLoop credMap opSPec rest true).map
            (fun out => (nd.Username, nd.Password) :: (uname, credMap.index uname) :: out)
        else
          (mergeLoop credMap opSPec rest dataChanged).map
            (fun out => (uname, credMap.index uname) :: out)
    else if opSPec.OpType = USR_UPD then
      match opSPec.NewData with
      | none => .error .nilDeref
      | some nd =>
        let send := decide (Compare nd.Username uname ≤ 0 ∧ dataChanged = false)
        let pre := if send then [(nd.Username, nd.Password)] else []
        let dataChanged := send || dataChanged
        match opSPec.OldData with
        | none => .error .nilDeref
        | some od =>
          if Compare od.Username uname = 0 then
            (mergeLoop credMap opSPec rest dataChanged).map (fun out => pre ++ out)
          else
            (mergeLoop credMap opSPec rest dataChanged).map
              (fun out => pre ++ (uname, credMap.index uname) :: out)
    else if opSPec.OpType = USR_DEL then
      match opSPec.OldData with
      | none => .error .nilDeref
      | some od =>
        if Compare od.Username uname = 0 ∧ dataChanged = false then
          mergeLoop credMap opSPec rest true
        else
          (mergeLoop credMap opSPec rest dataChanged).map
            (fun out => (uname, credMap.index uname) :: out)
    else
      (mergeLoop credMap opSPec rest dataChanged).map
        (fun out => (uname, credMap.index uname) :: out)

/-- The records the merge goroutine formats, starting with `dataChanged := false`. -/
def mergeRecords (unameSlc : List GoString) (credMap : CredMap) (opSPec : OpSpec) :
    Except Fatal (List (GoString × GoString)) :=
  mergeLoop credMap opSPec unameSlc false

/-- The line of one record. -/
def encode (r : GoString × GoString) : GoString := Sprintf r.1 r.2

/-- The strings the merge goroutine sends on `recChan` before closing it. -/
def mergeLines (unameSlc : List GoString) (credMap : CredMap) (opSPec : OpSpec) :
    Except Fatal (List GoString) :=
  (mergeRecords unameSlc credMap opSPec).map (List.map encode)

/-- The `OpSpec` built by `AddUser`. -/
def opAdd (new : UserCred) : OpSpec := ⟨USR_ADD, none, some new⟩

/-- The `OpSpec` built by `UpdateUser`. -/
def opUpdate (old new : UserCred) : OpSpec := ⟨USR_UPD, some old, some new⟩

/-- The `OpSpec` built by `DeleteUser`. -/
def opDelete (old : UserCred) : OpSpec := ⟨USR_DEL, some old, none⟩

/-! ## `ParseRecordToMap` -/

/-- The pieces of a string between occurrences of the byte `sep`; a string with
`n` separators has `n + 1` pieces, and the empty string has the one piece `""`. -/
def splitBy (sep : Byte) : GoString → List GoString
  | [] => [[]]
  | c :: cs =>
    if c = sep then [] :: splitBy sep cs
    else
      match splitBy sep cs with
      | [] => [[c]]
      | seg :: segs => (c :: seg) :: segs

/-- Go `strings.Split(s, ",")`. -/
def Split (s : GoString) : List GoString := splitBy comma s

/-- Go `bufio.MaxScanTokenSize`, the buffer limit of a `bufio.Scanner`. -/
def maxScanTokenSize : Nat := 64 * 1024

/-- The stored lines of a file: the pieces between newline bytes, where an empty
piece after the last newline (or an empty file) is no line. -/
def rawLines (data : GoString) : List GoString :=
  let segs := splitBy newline data
  if segs.getLast? = some [] then segs.dropLast else segs

/-- Go `dropCR` of `bufio.ScanLines`: one trailing `'\r'` is removed. -/
def dropCR (data : GoString) : GoString :=
  if data.getLast? = some cr then data.dropLast else data

/-- The run of a `bufio.Scanner` with the default `ScanLines` split over the stored
lines: the values of `sc.Text()` for the successful calls of `sc.Scan()`, and
whether `sc.Err()` is non-nil afterwards. A line that does not fit the buffer
(`maxScanTokenSize` bytes or more before its newline) stops the scan with
`ErrTooLong`. -/
def scanLines : List GoString → List GoString × Bool
  | [] => ([], false)
  | l :: ls =>
    if maxScanTokenSize ≤ l.length then ([], true)
    else ((dropCR l) :: (scanLines ls).1, (scanLines ls).2)

/-- The scanner of `bufio.NewScanner(fp)` run over the content of the file. -/
def Scanner (file : GoString) : List GoString × Bool := scanLines (rawLines file)

/-- The loop `for sc.Scan()` of `ParseRecordToMap` over the scanned texts. -/
def parseLoop : List GoString → CredMap → List GoString →
    Except Fatal (CredMap × List GoString)
  | [], credMap, unameSlc => .ok (credMap, unameSlc)
  | text :: rest, credMap, unameSlc =>
    match Split text with
    | [f0, f1] => parseLoop rest (credMap.set f0 f1) (unameSlc ++ [f0])
    | _ => .error .corrupt

/-- Go `sort.StringsAreSorted`. -/
def StringsAreSorted : List GoString → Bool
  | a :: b :: rest => !(decide (slt b a)) && StringsAreSorted (b :: rest)
  | _ => true

/-- Go `sort.Strings`: the slice rearranged into increasing order. -/
def sortStrings (x : List GoString) : List GoString := x.insertionSort sle

set_option linter.unusedVariables false in
/-- The function `ParseRecordToMap` on a file with the given content. `credMap` is
the map behind the pointer argument and `unameSlc` the package variable on entry;
the result is the pair of both on return. -/
def ParseRecordToMap (file : GoString) (credMap : CredMap) (unameSlc : List GoString) :
    Except Fatal (CredMap × List GoString) :=
  let unameSlc : List GoString := []
  let sc := Scanner file
  match parseLoop sc.1 credMap unameSlc with
  | .error e => .error e
  | .ok (credMap, unameSlc) =>
    let unameSlc := if !StringsAreSorted unameSlc then sortStrings unameSlc else unameSlc
    if sc.2 then .error .scanner else .ok (credMap, unameSlc)

/-! ## `DumpDataToFile` -/

/-- The function `DumpDataToFile` for the received `opSPec`: the content of the
record file after the writer goroutine has flushed, reached when `done` is sent. -/
def DumpDataToFile (file : GoString) (unameSlc : List GoString) (opSPec : OpSpec) :
    Except Fatal GoString :=
  match ParseRecordToMap file emptyMap unameSlc with
  | .error e => .error e
  | .ok (credMap, unameSlc) =>
    match mergeLines unameSlc credMap opSPec with
    | .error e => .error e
    | .ok recs => .ok recs.flatten

/-! ## Package `usermgmt` -/

/-- What one of `AddUser`, `DeleteUser`, `UpdateUser` leaves behind: the package
map `credMap`, the receiver, the values it sent itself on `signalControllerChan`,
and the `OpSpec` sent to a started `DumpDataToFile`, if one was started. -/
structure Outcome where
  credMap : CredMap
  uscred : UserCred
  signals : List Bool
  dump : Option OpSpec

/-- The method `ValidateUser`, with `sha256` the hex digest
`fmt.Sprintf("%x", sha256(password))`: the receiver afterwards and the first
value sent on `valSuccessChan`. -/
def ValidateUser (sha256 : GoString → GoString) (credMap : CredMap)
    (userName userPass : GoString) : UserCred × Bool :=
  let uscred : UserCred := ⟨userName, sha256 userPass⟩
  match credMap uscred.Username with
  | some passFrmMap =>
    if Compare passFrmMap uscred.Password = 0 then (uscred, true) else (uscred, false)
  | none => (uscred, false)

/-- The method `AddUser`, having received `valSuccess` from `valSuccessChan`. -/
def AddUser (credMap : CredMap) (uscred : UserCred) (valSuccess : Bool) : Outcome :=
  if valSuccess = true ∨ credMap.index uscred.Username ≠ [] then
    ⟨credMap, uscred, [true], none⟩
  else
    ⟨credMap.set uscred.Username uscred.Password, uscred, [],
      some ⟨USR_ADD, none, some ⟨uscred.Username, uscred.Password⟩⟩⟩

/-- The method `DeleteUser`, having received `valSuccess` from `valSuccessChan`. -/
def DeleteUser (credMap : CredMap) (uscred : UserCred) (valSuccess : Bool) : Outcome :=
  if valSuccess = false then ⟨credMap, uscred, [false], none⟩
  else
    ⟨credMap.delete uscred.Username, uscred, [],
      some ⟨USR_DEL, some ⟨uscred.Username, uscred.Password⟩, none⟩⟩

/-- The method `UpdateUser`, having received `valSuccess` from `valSuccessChan`;
`newUserName` and `newPassword` are what `main` sends after the first `true`. -/
def UpdateUser (sha256 : GoString → GoString) (credMap : CredMap) (uscred : UserCred)
    (valSuccess : Bool) (newUserName newPassword : GoString) : Outcome :=
  if valSuccess = false then ⟨credMap, uscred, [false], none⟩
  else if (credMap newUserName).isSome = true ∧ Compare newUserName uscred.Username ≠ 0 then
    ⟨credMap, uscred, [true, false], none⟩
  else
    let tempUsCred : UserCred := ⟨uscred.Username, uscred.Password⟩
    let credMap := credMap.delete uscred.Username
    let uscred : UserCred := ⟨newUserName, sha256 newPassword⟩
    ⟨credMap.set uscred.Username uscred.Password, uscred, [true],
      some ⟨USR_UPD, some tempUsCred, some ⟨uscred.Username, uscred.Password⟩⟩⟩

/-- The operation selected by the flags of `main`. -/
inductive Mode where
  | add
  | delete
  | update (newUserName newPassword : GoString)

/-- The goroutines started by `main`: `ValidateUser` on the supplied credentials,
then the selected method, which receives what `ValidateUser` sent. -/
def handshake (sha256 : GoString → GoString) (credMap : CredMap) (mode : Mode)
    (userName userPass : GoString) : Outcome :=
  let v := ValidateUser sha256 credMap userName userPass
  match mode with
  | .add => AddUser credMap v.1 v.2
  | .delete => DeleteUser credMap v.1 v.2
  | .update newUserName newPassword => UpdateUser sha256 credMap v.1 v.2 newUserName newPassword

/-- The rest of the run after the selected method: the content of the record file
and the values `main` can receive on `opStatusChan`; a started `DumpDataToFile`
ends with `done<- true`. -/
def persist (file : GoString) (unameSlc : List GoString) (o : Outcome) :
    Except Fatal (GoString × List Bool) :=
  match o.dump with
  | none => .ok (file, o.signals)
  | some opSPec =>
    match DumpDataToFile file unameSlc opSPec with
    | .error e => .error e
    | .ok file => .ok (file, o.signals ++ [true])

/-! ## Vocabulary of the statements -/

/-- The record the merge goroutine formats for an existing username. -/
def recOf (credMap : CredMap) (uname : GoString) : GoString × GoString :=
  (uname, credMap.index uname)

/-- The line the merge goroutine sends for an existing username. -/
def lineOf (credMap : CredMap) (uname : GoString) : GoString :=
  Sprintf uname (credMap.index uname)

/-- The two fields `strSlc[0]`, `strSlc[1]` of an accepted text. -/
def fieldsOf (text : GoString) : GoString × GoString :=
  ((Split text).headD [], (Split text).tail.headD [])

/-- The records of the texts the scanner returns for a file. -/
def storedRecords (file : GoString) : List (GoString × GoString) :=
  (Scanner file).1.map fieldsOf

/-- The hash of the last record with the given username, if there is one. -/
def lastHash : List (GoString × GoString) → GoString → Option GoString
  | [], _ => none
  | r :: rs, u =>
    match lastHash rs u with
    | some h => some h
    | none => if r.1 = u then some r.2 else none

/-- The map after the assignments `credMap[r.1] = r.2` for the records in order. -/
def setAll (recs : List (GoString × GoString)) (credMap : CredMap) : CredMap :=
  recs.foldl (fun m r => m.set r.1 r.2) credMap

/-! ## Concrete data -/

/-- The bytes of an ASCII literal. -/
def ascii (s : String) : GoString := s.data.map (fun c => Fin.ofNat c.toNat)

/-- A mapping given by a list of pairs, the first pair for a key winning. -/
def mapOf (kvs : List (GoString × GoString)) : CredMap := fun k => kvs.lookup k

/-- The store `{alice:h1, carol:h3}`. -/
def storeAliceCarol : CredMap :=
  mapOf [(ascii "alice", ascii "h1"), (ascii "carol", ascii "h3")]

/-- The store `{alice:h1}`. -/
def storeAlice : CredMap := mapOf [(ascii "alice", ascii "h1")]

/-- The store `{alice:h1, bob:h2}`. -/
def storeAliceBob : CredMap :=
  mapOf [(ascii "alice", ascii "h1"), (ascii "bob", ascii "h2")]

/-- The SHA-256 hex digest of the string `password`. -/
def digestOfPassword : GoString :=
  ascii "5e884898da28047151d0e56f8dc6292773603d0d6aabbdd62a11ef721d1542d8"

/-- The store `{alice:h1, bob:h2}` with `digestOfPassword` for `h1`. -/
def storeHashed : CredMap :=
  mapOf [(ascii "alice", digestOfPassword), (ascii "bob", ascii "h2")]

/-- The store read from the file of the one line `bob,`, whose hash field is empty. -/
def storeBobEmpty : CredMap := mapOf [(ascii "bob", [])]

/-- A file of one line without a newline: 99999 bytes `a` and a comma. -/
def longLine : GoString := List.replicate 99999 (97 : Byte) ++ [comma]

/-! ## The string order -/

theorem Compare_swap (a b : GoString) : Compare b a = - Compare a b := by
  induction a generalizing b with
  | nil => cases b <;> simp [Compare]
  | cons x xs ih =>
    cases b with
    | nil => simp [Compare]
    | cons y ys =>
      simp only [Compare]
      rcases lt_trichotomy x y with h | h | h
      · simp [h, lt_asymm h]
      · subst h; simp [ih]
      · simp [h, lt_asymm h]

theorem Compare_eq_zero_iff (a b : GoString) : Compare a b = 0 ↔ a = b := by
  induction a generalizing b with
  | nil => cases b <;> simp [Compare]
  | cons x xs ih =>
    cases b with
    | nil => simp [Compare]
    | cons y ys =>
      simp only [Compare]
      rcases lt_trichotomy x y with h | h | h
      · simp [h, ne_of_lt h]
      · subst h; simp [ih]
      · simp [h, lt_asymm h, ne_of_gt h]

theorem Compare_self (a : GoString) : Compare a a = 0 :=
  (Compare_eq_zero_iff a a).2 rfl

theorem slt_trans {a b c : GoString} (hab : slt a b) (hbc : slt b c) : slt a c := by
  unfold slt at *
  induction a generalizing b c with
  | nil =>
    cases c with
    | nil => cases b <;> simp [Compare] at hab hbc
    | cons z zs => simp [Compare]
  | cons x xs ih =>
    cases b with
    | nil => simp [Compare] at hab
    | cons y ys =>
      cases c with
      | nil => simp [Compare] at hbc
      | cons z zs =>
        simp only [Compare] at hab hbc ⊢
        rcases lt_trichotomy x y with h | h | h
        · rcases lt_trichotomy y z with h2 | h2 | h2
          · simp [lt_trans h h2]
          · subst h2; simp [h]
          · simp [h2, lt_asymm h2] at hbc
        · subst h
          rcases lt_trichotomy x z with h2 | h2 | h2
          · simp [h2]
          · subst h2
            simp only [lt_irrefl, if_false] at hab hbc ⊢
            exact ih hab hbc
          · simp [h2, lt_asymm h2] at hbc
        · simp [h, lt_asymm h] at hab

theorem slt_irrefl (a : GoString) : ¬ slt a a := by
  unfold slt; rw [Compare_self]; decide

theorem slt_asymm {a b : GoString} (h : slt a b) : ¬ slt b a := by
  unfold slt at *; rw [Compare_swap]; omega

theorem slt_ne {a b : GoString} (h : slt a b) : a ≠ b := by
  intro e; subst e; exact slt_irrefl a h

theorem slt_trichotomy (a b : GoString) : slt a b ∨ a = b ∨ slt b a := by
  rcases lt_trichotomy (Compare a b) 0 with h | h | h
  · exact Or.inl h
  · exact Or.inr (Or.inl ((Compare_eq_zero_iff a b).1 h))
  · right; right; unfold slt; rw [Compare_swap]; omega

theorem sle_iff (a b : GoString) : sle a b ↔ slt a b ∨ a = b := by
  unfold sle slt; rw [← Compare_eq_zero_iff]; omega

theorem not_slt_iff (a b : GoString) : ¬ slt a b ↔ sle b a := by
  unfold sle slt; rw [Compare_swap b a]; omega


/-! ## Splitting and scanning -/

theorem splitBy_ne_nil (sep : Byte) (s : GoString) : splitBy sep s ≠ [] := by
  cases s with
  | nil => simp [splitBy]
  | cons c cs =>
    simp only [splitBy]
    split
    · simp
    · split <;> simp

theorem splitBy_length (sep : Byte) (s : GoString) :
    (splitBy sep s).length = s.count sep + 1 := by
  induction s with
  | nil => simp [splitBy]
  | cons c cs ih =>
    simp only [splitBy]
    by_cases h : c = sep
    · subst h; simp [ih]
    · rw [if_neg h]
      have hc : (c :: cs).count sep = cs.count sep := by
        rw [List.count_cons]; simp [h]
      rw [hc, ← ih]
      cases hs : splitBy sep cs with
      | nil => exact absurd hs (splitBy_ne_nil sep cs)
      | cons seg segs => simp

theorem splitBy_of_not_mem (sep : Byte) (s : GoString) (h : sep ∉ s) : splitBy sep s = [s] := by
  induction s with
  | nil => simp [splitBy]
  | cons c cs ih =>
    have hc : ¬ c = sep := fun e => h (by simp [e])
    have hcs : sep ∉ cs := fun e => h (List.mem_cons_of_mem _ e)
    simp [splitBy, hc, ih hcs]

theorem splitBy_append_sep (sep : Byte) (a b : GoString) (h : sep ∉ a) :
    splitBy sep (a ++ sep :: b) = a :: splitBy sep b := by
  induction a with
  | nil => simp [splitBy]
  | cons c cs ih =>
    have hc : ¬ c = sep := fun e => h (by simp [e])
    have hcs : sep ∉ cs := fun e => h (List.mem_cons_of_mem _ e)
    simp [splitBy, hc, ih hcs]

theorem Split_length (s : GoString) : (Split s).length = s.count comma + 1 :=
  splitBy_length comma s

theorem Split_length_eq_two_iff (s : GoString) : (Split s).length = 2 ↔ s.count comma = 1 := by
  rw [Split_length]; omega

theorem count_comma_dropCR (l : GoString) : (dropCR l).count comma = l.count comma := by
  unfold dropCR
  split
  · rename_i h
    have e := List.dropLast_append_getLast? cr (by rw [h]; exact rfl)
    conv_rhs => rw [← e]
    rw [List.count_append]
    have : List.count comma [cr] = 0 := by decide
    omega
  · rfl

theorem Split_dropCR_length (l : GoString) : (Split (dropCR l)).length = (Split l).length := by
  rw [Split_length, Split_length, count_comma_dropCR]

theorem scanLines_short (ls : List GoString) (h : ∀ l ∈ ls, l.length < maxScanTokenSize) :
    scanLines ls = (ls.map dropCR, false) := by
  induction ls with
  | nil => rfl
  | cons l ls ih =>
    have h1 : ¬ maxScanTokenSize ≤ l.length := by
      have := h l (by simp); omega
    have h2 := ih (fun x hx => h x (List.mem_cons_of_mem _ hx))
    simp [scanLines, h1, h2]

theorem scanLines_err_iff (ls : List GoString) :
    (scanLines ls).2 = true ↔ ∃ l ∈ ls, maxScanTokenSize ≤ l.length := by
  induction ls with
  | nil => simp [scanLines]
  | cons l ls ih =>
    by_cases h1 : maxScanTokenSize ≤ l.length
    · simp only [scanLines, h1, if_true, true_iff]
      exact ⟨l, by simp, h1⟩
    · simp only [scanLines, h1, if_false, ih, List.mem_cons, exists_eq_or_imp, false_or]

theorem scanLines_tokens (ls : List GoString) :
    ∀ t ∈ (scanLines ls).1, ∃ l ∈ ls, t = dropCR l := by
  induction ls with
  | nil => simp [scanLines]
  | cons l ls ih =>
    by_cases h1 : maxScanTokenSize ≤ l.length
    · simp [scanLines, h1]
    · intro t ht
      simp only [scanLines, h1, if_false, List.mem_cons] at ht
      rcases ht with ht | ht
      · exact ⟨l, by simp, ht⟩
      · obtain ⟨x, hx, e⟩ := ih t ht
        exact ⟨x, List.mem_cons_of_mem _ hx, e⟩

/-! ## The load -/

theorem Split_eq_pair {t : GoString} (h : (Split t).length = 2) :
    Split t = [(fieldsOf t).1, (fieldsOf t).2] := by
  unfold fieldsOf
  cases hs : Split t with
  | nil => rw [hs] at h; simp at h
  | cons a l1 =>
    cases l1 with
    | nil => rw [hs] at h; simp at h
    | cons b l2 =>
      cases l2 with
      | nil => rfl
      | cons c l3 => rw [hs] at h; simp at h

theorem parseLoop_cons_ok (t : GoString) (rest : List GoString) (m : CredMap)
    (acc : List GoString) (h : (Split t).length = 2) :
    parseLoop (t :: rest) m acc =
      parseLoop rest (m.set (fieldsOf t).1 (fieldsOf t).2) (acc ++ [(fieldsOf t).1]) := by
  rw [parseLoop, Split_eq_pair h]

theorem parseLoop_cons_bad (t : GoString) (rest : List GoString) (m : CredMap)
    (acc : List GoString) (h : (Split t).length ≠ 2) :
    parseLoop (t :: rest) m acc = .error .corrupt := by
  rw [parseLoop]
  split
  · rename_i f0 f1 hs
    rw [hs] at h; simp at h
  · rfl

theorem parseLoop_ok (texts : List GoString) (m : CredMap) (acc : List GoString)
    (h : ∀ t ∈ texts, (Split t).length = 2) :
    parseLoop texts m acc =
      .ok (setAll (texts.map fieldsOf) m, acc ++ (texts.map fieldsOf).map Prod.fst) := by
  induction texts generalizing m acc with
  | nil => simp [parseLoop, setAll]
  | cons t rest ih =>
    rw [parseLoop_cons_ok t rest m acc (h t (by simp)),
      ih _ _ (fun x hx => h x (List.mem_cons_of_mem _ hx))]
    simp [setAll]

theorem parseLoop_bad (texts : List GoString) (m : CredMap) (acc : List GoString)
    (h : ∃ t ∈ texts, (Split t).length ≠ 2) :
    parseLoop texts m acc = .error .corrupt := by
  induction texts generalizing m acc with
  | nil => simp at h
  | cons t rest ih =>
    by_cases ht : (Split t).length = 2
    · rw [parseLoop_cons_ok t rest m acc ht]
      apply ih
      obtain ⟨x, hx, hb⟩ := h
      rcases List.mem_cons.1 hx with e | e
      · rw [e] at hb; exact absurd ht hb
      · exact ⟨x, e, hb⟩
    · exact parseLoop_cons_bad t rest m acc ht

theorem sle_trans {a b c : GoString} (hab : sle a b) (hbc : sle b c) : sle a c := by
  rw [sle_iff] at *
  rcases hab with h1 | h1
  · rcases hbc with h2 | h2
    · exact Or.inl (slt_trans h1 h2)
    · rw [← h2]; exact Or.inl h1
  · rw [h1]; exact hbc

theorem sle_total (a b : GoString) : sle a b ∨ sle b a := by
  rw [sle_iff, sle_iff]
  rcases slt_trichotomy a b with h | h | h
  · exact Or.inl (Or.inl h)
  · exact Or.inl (Or.inr h)
  · exact Or.inr (Or.inl h)

theorem chain_sle_iff_pairwise (l : List GoString) :
    List.Chain' sle l ↔ List.Pairwise sle l := by
  haveI : IsTrans GoString sle := ⟨fun _ _ _ => sle_trans⟩
  exact List.chain'_iff_pairwise

theorem StringsAreSorted_iff (x : List GoString) :
    StringsAreSorted x = true ↔ List.Pairwise sle x := by
  rw [← chain_sle_iff_pairwise]
  induction x with
  | nil => simp [StringsAreSorted]
  | cons a l ih =>
    cases l with
    | nil => simp [StringsAreSorted]
    | cons b rest =>
      rw [StringsAreSorted, List.chain'_cons, ← ih, Bool.and_eq_true]
      simp [not_slt_iff]

/-- The slice left in `unameSlc` by the sorting step of `ParseRecordToMap`. -/
theorem sortStep_sorted_perm (x : List GoString) :
    List.Pairwise sle (if !StringsAreSorted x then sortStrings x else x) ∧
      List.Perm (if !StringsAreSorted x then sortStrings x else x) x := by
  haveI : IsTrans GoString sle := ⟨fun _ _ _ => sle_trans⟩
  haveI : IsTotal GoString sle := ⟨sle_total⟩
  by_cases h : StringsAreSorted x = true
  · simp only [h, Bool.not_true, Bool.false_eq_true, if_false]
    exact ⟨(StringsAreSorted_iff x).1 h, List.Perm.refl _⟩
  · have h2 : StringsAreSorted x = false := by simpa using h
    simp only [h2, Bool.not_false, if_true]
    exact ⟨List.sorted_insertionSort sle x, List.perm_insertionSort sle x⟩

theorem ParseRecordToMap_error_iff (file : GoString) (credMap : CredMap)
    (unameSlc : List GoString) :
    (∃ e, ParseRecordToMap file credMap unameSlc = .error e) ↔
      ∃ l ∈ rawLines file, maxScanTokenSize ≤ l.length ∨ (Split l).length ≠ 2 := by
  unfold ParseRecordToMap Scanner
  constructor
  · intro ⟨e, he⟩
    by_cases hb : ∃ t ∈ (scanLines (rawLines file)).1, (Split t).length ≠ 2
    · obtain ⟨t, ht, hbad⟩ := hb
      obtain ⟨l, hl, rfl⟩ := scanLines_tokens _ t ht
      rw [Split_dropCR_length] at hbad
      exact ⟨l, hl, Or.inr hbad⟩
    · have hall : ∀ t ∈ (scanLines (rawLines file)).1, (Split t).length = 2 := by
        intro t ht
        by_contra hc
        exact hb ⟨t, ht, hc⟩
      simp only [parseLoop_ok _ _ _ hall] at he
      by_cases herr : (scanLines (rawLines file)).2 = true
      · obtain ⟨l, hl, hlong⟩ := (scanLines_err_iff _).1 herr
        exact ⟨l, hl, Or.inl hlong⟩
      · simp [herr] at he
  · intro ⟨l, hl, hlb⟩
    by_cases herr : (scanLines (rawLines file)).2 = true
    · by_cases hb : ∃ t ∈ (scanLines (rawLines file)).1, (Split t).length ≠ 2
      · exact ⟨.corrupt, by simp only [parseLoop_bad _ _ _ hb]⟩
      · have hall : ∀ t ∈ (scanLines (rawLines file)).1, (Split t).length = 2 := by
          intro t ht
          by_contra hc
          exact hb ⟨t, ht, hc⟩
        exact ⟨.scanner, by simp [parseLoop_ok _ _ _ hall, herr]⟩
    · have hshort : ∀ x ∈ rawLines file, x.length < maxScanTokenSize := by
        intro x hx
        by_contra hc
        exact herr ((scanLines_err_iff _).2 ⟨x, hx, by omega⟩)
      rcases hlb with hlong | hbad
      · exact absurd hlong (by have := hshort l hl; omega)
      · have hb : ∃ t ∈ (scanLines (rawLines file)).1, (Split t).length ≠ 2 := by
          rw [scanLines_short _ hshort]
          exact ⟨dropCR l, List.mem_map_of_mem _ hl, by rw [Split_dropCR_length]; exact hbad⟩
        exact ⟨.corrupt, by simp only [parseLoop_bad _ _ _ hb]⟩

theorem ParseRecordToMap_ok (file : GoString) (credMap : CredMap) (unameSlc : List GoString)
    (h : ∀ l ∈ rawLines file, l.length < maxScanTokenSize ∧ (Split l).length = 2) :
    ParseRecordToMap file credMap unameSlc =
      .ok (setAll (storedRecords file) credMap,
        if !StringsAreSorted ((storedRecords file).map Prod.fst)
        then sortStrings ((storedRecords file).map Prod.fst)
        else (storedRecords file).map Prod.fst) := by
  have hshort : ∀ x ∈ rawLines file, x.length < maxScanTokenSize := fun x hx => (h x hx).1
  have hsc : scanLines (rawLines file) = ((rawLines file).map dropCR, false) :=
    scanLines_short _ hshort
  have hall : ∀ t ∈ (rawLines file).map dropCR, (Split t).length = 2 := by
    intro t ht
    obtain ⟨l, hl, rfl⟩ := List.mem_map.1 ht
    rw [Split_dropCR_length]; exact (h l hl).2
  unfold ParseRecordToMap storedRecords Scanner
  simp only [hsc, parseLoop_ok _ _ _ hall]
  simp

theorem setAll_apply (recs : List (GoString × GoString)) (m : CredMap) (u : GoString) :
    setAll recs m u = (match lastHash recs u with | some h => some h | none => m u) := by
  induction recs generalizing m with
  | nil => simp [setAll, lastHash]
  | cons r rs ih =>
    have e : setAll (r :: rs) m = setAll rs (m.set r.1 r.2) := by simp [setAll]
    rw [e, ih, lastHash]
    cases lastHash rs u with
    | some h => rfl
    | none =>
      by_cases hu : u = r.1
      · simp [CredMap.set, hu]
      · have hu2 : ¬ r.1 = u := fun e => hu e.symm
        simp [CredMap.set, hu, hu2]

theorem lastHash_isSome_iff (recs : List (GoString × GoString)) (u : GoString) :
    (lastHash recs u).isSome = true ↔ u ∈ recs.map Prod.fst := by
  induction recs with
  | nil => simp [lastHash]
  | cons r rs ih =>
    rw [lastHash]
    cases hl : lastHash rs u with
    | some h =>
      rw [hl] at ih
      have : u ∈ rs.map Prod.fst := ih.1 rfl
      simp only [List.map_cons, List.mem_cons, Option.isSome_some, true_iff]
      exact Or.inr this
    | none =>
      rw [hl] at ih
      have hn : u ∉ rs.map Prod.fst := fun h => by simpa using ih.2 h
      by_cases hu : r.1 = u
      · simp [hu]
      · have hu2 : ¬ u = r.1 := fun e => hu e.symm
        simp only [hu, if_false, List.map_cons, List.mem_cons, hu2, false_or]
        simpa using hn

theorem lastHash_mem (recs : List (GoString × GoString)) (u h : GoString)
    (hl : lastHash recs u = some h) : (u, h) ∈ recs := by
  induction recs with
  | nil => simp [lastHash] at hl
  | cons r rs ih =>
    rw [lastHash] at hl
    cases hr : lastHash rs u with
    | some h2 =>
      rw [hr] at hl
      simp only [Option.some.injEq] at hl
      subst hl
      exact List.mem_cons_of_mem _ (ih hr)
    | none =>
      rw [hr] at hl
      by_cases hu : r.1 = u
      · simp only [hu, if_true, Option.some.injEq] at hl
        rw [← hu, ← hl]
        exact List.mem_cons_self _ _
      · simp [hu] at hl

theorem lastHash_of_nodup (recs : List (GoString × GoString))
    (hd : (recs.map Prod.fst).Nodup) (r : GoString × GoString) (hr : r ∈ recs) :
    lastHash recs r.1 = some r.2 := by
  induction recs with
  | nil => simp at hr
  | cons x xs ih =>
    rw [List.map_cons, List.nodup_cons] at hd
    rw [lastHash]
    rcases List.mem_cons.1 hr with e | e
    · subst e
      have hn : lastHash xs r.1 = none := by
        cases hl : lastHash xs r.1 with
        | none => rfl
        | some h =>
          exfalso
          exact hd.1 ((lastHash_isSome_iff xs r.1).1 (by rw [hl]; rfl))
      simp [hn]
    · rw [ih hd.2 e]

theorem rawLines_single (s : GoString) (hn : newline ∉ s) (he : s ≠ []) : rawLines s = [s] := by
  unfold rawLines
  rw [splitBy_of_not_mem newline s hn]
  have : ¬ s = [] := he
  simp [this]

theorem rawLines_one_line (line : GoString) (hn : newline ∉ line) :
    rawLines (line ++ [newline]) = [line] := by
  unfold rawLines
  rw [splitBy_append_sep newline line [] hn]
  simp [splitBy]

theorem ParseRecordToMap_too_long (file : GoString) (credMap : CredMap)
    (unameSlc : List GoString) (hraw : rawLines file = [file])
    (hlen : maxScanTokenSize ≤ file.length) :
    ParseRecordToMap file credMap unameSlc = .error .scanner := by
  have hsc : scanLines [file] = ([], true) := by
    rw [scanLines, if_pos hlen]
  unfold ParseRecordToMap Scanner
  rw [hraw, hsc]
  rfl

theorem longLine_length : longLine.length = 100000 := by
  unfold longLine
  rw [List.length_append, List.length_replicate]
  rfl

theorem longLine_no_newline : newline ∉ longLine := by
  unfold longLine
  intro h
  rcases List.mem_append.1 h with h | h
  · exact absurd (List.eq_of_mem_replicate h) (by decide)
  · exact absurd (List.mem_singleton.1 h) (by decide)

theorem longLine_count : longLine.count comma = 1 := by
  unfold longLine
  rw [List.count_append, List.count_replicate]
  have h1 : ((97 : Byte) == comma) = false := by decide
  have h2 : List.count comma [comma] = 1 := by decide
  rw [h1, h2]
  rfl

theorem longLine_rawLines : rawLines longLine = [longLine] := by
  apply rawLines_single _ longLine_no_newline
  intro h
  have := congrArg List.length h
  rw [longLine_length] at this
  exact absurd this (by decide)

theorem ParseRecordToMap_one_record (u h : GoString)
    (hu : comma ∉ u) (hh : comma ∉ h) (hun : newline ∉ u) (hhn : newline ∉ h)
    (hcr : h.getLast? ≠ some cr) (hlen : u.length + 1 + h.length < maxScanTokenSize) :
    Scanner (Sprintf u h) = ([u ++ comma :: h], false) ∧
      Split (u ++ comma :: h) = [u, h] ∧
      ∀ old, ParseRecordToMap (Sprintf u h) emptyMap old = .ok (emptyMap.set u h, [u]) := by
  have hline : newline ∉ u ++ comma :: h := by
    intro hm
    rcases List.mem_append.1 hm with h1 | h1
    · exact hun h1
    · rcases List.mem_cons.1 h1 with h2 | h2
      · exact absurd h2 (by decide)
      · exact hhn h2
  have hS : Sprintf u h = (u ++ comma :: h) ++ [newline] := by simp [Sprintf]
  have hraw : rawLines (Sprintf u h) = [u ++ comma :: h] := by
    rw [hS]; exact rawLines_one_line _ hline
  have hdrop : dropCR (u ++ comma :: h) = u ++ comma :: h := by
    unfold dropCR
    have : (u ++ comma :: h).getLast? ≠ some cr := by
      rw [List.getLast?_append, List.getLast?_cons]
      cases hl : h.getLast? with
      | none => simp only [Option.getD_none, Option.or_some]; decide
      | some x =>
        simp only [Option.getD_some, Option.or_some]
        rw [hl] at hcr
        exact hcr
    rw [if_neg this]
  have hshort : ¬ maxScanTokenSize ≤ (u ++ comma :: h).length := by
    rw [List.length_append, List.length_cons]; omega
  have hscan : Scanner (Sprintf u h) = ([u ++ comma :: h], false) := by
    unfold Scanner
    rw [hraw]
    simp only [scanLines, hshort, if_false, hdrop]
  have hsplit : Split (u ++ comma :: h) = [u, h] := by
    unfold Split
    rw [splitBy_append_sep comma u h hu, splitBy_of_not_mem comma h hh]
  refine ⟨hscan, hsplit, ?_⟩
  intro old
  unfold ParseRecordToMap
  simp only [hscan, parseLoop, hsplit]
  simp [StringsAreSorted]

/-! ## The merge goroutine -/

theorem chain_slt_iff_pairwise (l : List GoString) :
    List.Chain' slt l ↔ List.Pairwise slt l := by
  haveI : IsTrans GoString slt := ⟨fun _ _ _ => slt_trans⟩
  exact List.chain'_iff_pairwise

theorem mergeLoop_add_changed (m : CredMap) (new : UserCred) (order : List GoString) :
    mergeLoop m (opAdd new) order true = .ok (order.map (recOf m)) := by
  induction order with
  | nil => simp [mergeLoop, opAdd]
  | cons u rest ih =>
    simp only [opAdd] at ih
    simp [mergeLoop, opAdd, ih, Except.map, recOf]

theorem mergeLoop_add (m : CredMap) (new : UserCred) (order : List GoString)
    (hs : List.Pairwise slt order) (hn : new.Username ∉ order) :
    mergeLoop m (opAdd new) order false =
      .ok ((order.filter (fun u => decide (slt u new.Username))).map (recOf m) ++
        (new.Username, new.Password) ::
          (order.filter (fun u => decide (slt new.Username u))).map (recOf m)) := by
  induction order with
  | nil => simp [mergeLoop, opAdd]
  | cons u rest ih =>
    rw [List.pairwise_cons] at hs
    have hne : new.Username ≠ u := fun e => hn (by simp [e])
    have hnr : new.Username ∉ rest := fun h => hn (List.mem_cons_of_mem _ h)
    have ih2 := ih hs.2 hnr
    have hc := mergeLoop_add_changed m new rest
    simp only [opAdd] at ih2 hc
    by_cases hlt : slt new.Username u
    · have h1 : ∀ v ∈ rest, slt new.Username v := fun v hv => slt_trans hlt (hs.1 v hv)
      have f1 : rest.filter (fun v => decide (slt v new.Username)) = [] := by
        rw [List.filter_eq_nil_iff]
        intro v hv; simpa using slt_asymm (h1 v hv)
      have f2 : rest.filter (fun v => decide (slt new.Username v)) = rest := by
        rw [List.filter_eq_self]
        intro v hv; simpa using h1 v hv
      have hlt2 : Compare new.Username u < 0 := hlt
      simp [mergeLoop, opAdd, hc, Except.map, recOf, hlt2, List.filter_cons, hlt, slt_asymm hlt,
        f1, f2]
    · have hgt : slt u new.Username := by
        rcases slt_trichotomy new.Username u with h | h | h
        · exact absurd h hlt
        · exact absurd h hne
        · exact h
      have hlt2 : ¬ Compare new.Username u < 0 := hlt
      simp [mergeLoop, opAdd, ih2, Except.map, recOf, hlt2, List.filter_cons, hlt, hgt]

theorem usr_upd_ne_add : ¬ USR_UPD = USR_ADD := by decide

theorem usr_del_ne_add : ¬ USR_DEL = USR_ADD := by decide

theorem usr_del_ne_upd : ¬ USR_DEL = USR_UPD := by decide

theorem mergeLoop_delete_changed (m : CredMap) (old : UserCred) (order : List GoString) :
    mergeLoop m (opDelete old) order true = .ok (order.map (recOf m)) := by
  induction order with
  | nil => simp [mergeLoop, opDelete]
  | cons u rest ih =>
    simp only [opDelete] at ih
    simp [mergeLoop, opDelete, ih, Except.map, recOf, usr_del_ne_add, usr_del_ne_upd]

theorem mergeLoop_delete (m : CredMap) (old : UserCred) (order : List GoString)
    (hd : order.Nodup) :
    mergeLoop m (opDelete old) order false =
      .ok ((order.filter (fun u => decide (u ≠ old.Username))).map (recOf m)) := by
  induction order with
  | nil => simp [mergeLoop, opDelete]
  | cons u rest ih =>
    rw [List.nodup_cons] at hd
    have ih2 := ih hd.2
    have hc := mergeLoop_delete_changed m old rest
    simp only [opDelete] at ih2 hc
    by_cases he : old.Username = u
    · subst he
      have f : rest.filter (fun v => decide (v ≠ old.Username)) = rest := by
        rw [List.filter_eq_self]
        intro v hv
        have : v ≠ old.Username := fun e => hd.1 (by rw [← e]; exact hv)
        simpa using this
      simp only [mergeLoop, opDelete, usr_del_ne_add, usr_del_ne_upd, if_false, if_true,
        Compare_self, true_and, hc, List.filter_cons, ne_eq, not_true_eq_false, decide_False,
        Bool.false_eq_true]
      simp only [ne_eq] at f
      rw [f]
    · have h0 : ¬ Compare old.Username u = 0 := fun h => he ((Compare_eq_zero_iff _ _).1 h)
      have he2 : ¬ u = old.Username := fun e => he e.symm
      simp only [mergeLoop, opDelete, usr_del_ne_add, usr_del_ne_upd, if_false, if_true, h0,
        false_and, ih2, Except.map, List.filter_cons, ne_eq, he2, not_false_eq_true, decide_True,
        List.map_cons, recOf]

theorem mergeLoop_update_changed (m : CredMap) (old new : UserCred) (order : List GoString) :
    mergeLoop m (opUpdate old new) order true =
      .ok ((order.filter (fun u => decide (u ≠ old.Username))).map (recOf m)) := by
  induction order with
  | nil => simp [mergeLoop, opUpdate]
  | cons u rest ih =>
    simp only [opUpdate] at ih
    by_cases he : old.Username = u
    · subst he
      simp [mergeLoop, opUpdate, ih, Except.map, usr_upd_ne_add, Compare_self, List.filter_cons]
    · have h0 : ¬ Compare old.Username u = 0 := fun h => he ((Compare_eq_zero_iff _ _).1 h)
      have he2 : ¬ u = old.Username := fun e => he e.symm
      simp [mergeLoop, opUpdate, ih, Except.map, recOf, usr_upd_ne_add, h0, List.filter_cons,
        he2]

theorem mergeLoop_update (m : CredMap) (old new : UserCred) (order : List GoString)
    (hs : List.Pairwise slt order)
    (hn : new.Username = old.Username ∨ new.Username ∉ order) :
    mergeLoop m (opUpdate old new) order false =
      .ok ((order.filter
            (fun u => decide (u ≠ old.Username ∧ slt u new.Username))).map (recOf m) ++
        (new.Username, new.Password) ::
          (order.filter
            (fun u => decide (u ≠ old.Username ∧ slt new.Username u))).map (recOf m)) := by
  induction order with
  | nil => simp [mergeLoop, opUpdate]
  | cons u rest ih =>
    rw [List.pairwise_cons] at hs
    have hnr : new.Username = old.Username ∨ new.Username ∉ rest :=
      hn.imp id (fun h h2 => h (List.mem_cons_of_mem _ h2))
    have ih2 := ih hs.2 hnr
    have hc := mergeLoop_update_changed m old new rest
    simp only [opUpdate] at ih2 hc
    by_cases hle : Compare new.Username u ≤ 0
    · have hle2 : slt new.Username u ∨ new.Username = u := (sle_iff _ _).1 hle
      have h1 : ∀ v ∈ rest, slt new.Username v := by
        intro v hv
        rcases hle2 with hx | hx
        · exact slt_trans hx (hs.1 v hv)
        · rw [hx]; exact hs.1 v hv
      have f1 : rest.filter (fun v => decide (v ≠ old.Username ∧ slt v new.Username)) = [] := by
        rw [List.filter_eq_nil_iff]
        intro v hv
        have := slt_asymm (h1 v hv)
        simp [this]
      have f2 : rest.filter (fun v => decide (v ≠ old.Username ∧ slt new.Username v)) =
          rest.filter (fun v => decide (v ≠ old.Username)) := by
        apply List.filter_congr
        intro v hv
        simp [h1 v hv]
      have hnu : ¬ slt u new.Username := by
        rcases hle2 with h | h
        · exact slt_asymm h
        · rw [h]; exact slt_irrefl u
      by_cases he : old.Username = u
      · subst he
        rw [List.filter_cons, List.filter_cons, f1, f2]
        simp [mergeLoop, opUpdate, hc, Except.map, usr_upd_ne_add, Compare_self, hle]
      · have h0 : ¬ Compare old.Username u = 0 := fun h => he ((Compare_eq_zero_iff _ _).1 h)
        have he2 : ¬ u = old.Username := fun e => he e.symm
        have hlt : slt new.Username u := by
          rcases hle2 with h | h
          · exact h
          · exfalso
            rcases hn with h3 | h3
            · exact he (h3.symm.trans h)
            · exact h3 (by simp [h])
        rw [List.filter_cons, List.filter_cons, f1, f2]
        simp [mergeLoop, opUpdate, hc, Except.map, recOf, usr_upd_ne_add, h0, he2, hle, hnu, hlt]
    · have hgt : slt u new.Username := by
        by_contra hcon
        exact hle ((not_slt_iff u new.Username).1 hcon)
      have hnu : ¬ slt new.Username u := slt_asymm hgt
      by_cases he : old.Username = u
      · subst he
        rw [List.filter_cons, List.filter_cons]
        simp [mergeLoop, opUpdate, ih2, Except.map, usr_upd_ne_add, Compare_self, hle]
      · have h0 : ¬ Compare old.Username u = 0 := fun h => he ((Compare_eq_zero_iff _ _).1 h)
        have he2 : ¬ u = old.Username := fun e => he e.symm
        rw [List.filter_cons, List.filter_cons]
        simp [mergeLoop, opUpdate, ih2, Except.map, recOf, usr_upd_ne_add, h0, he2, hle, hgt, hnu]

theorem pairwise_slt_nodup {l : List GoString} (h : List.Pairwise slt l) : l.Nodup :=
  h.imp (fun hab => slt_ne hab)

theorem mergeLines_of_records {order : List GoString} {m : CredMap} {op : OpSpec}
    {recs : List (GoString × GoString)} (h : mergeRecords order m op = .ok recs) :
    mergeLines order m op = .ok (recs.map encode) := by
  simp [mergeLines, h, Except.map]

theorem map_encode_recOf (m : CredMap) (l : List GoString) :
    (l.map (recOf m)).map encode = l.map (lineOf m) := by
  simp [List.map_map, Function.comp_def, encode, recOf, lineOf]

theorem map_fst_recOf (m : CredMap) (l : List GoString) :
    (l.map (recOf m)).map Prod.fst = l := by
  simp [List.map_map, Function.comp_def, recOf]

theorem pairwise_insert_between (order : List GoString) (m : CredMap) (x pw : GoString)
    (p q : GoString → Bool) (hs : List.Pairwise slt order)
    (hp : ∀ u, p u = true → slt u x) (hq : ∀ u, q u = true → slt x u) :
    List.Pairwise slt
      (((order.filter p).map (recOf m) ++ (x, pw) :: (order.filter q).map (recOf m)).map
        Prod.fst) := by
  rw [List.map_append, List.map_cons, map_fst_recOf, map_fst_recOf, List.pairwise_append]
  refine ⟨hs.filter p, ?_, ?_⟩
  · rw [List.pairwise_cons]
    refine ⟨?_, hs.filter q⟩
    intro b hb
    exact hq b (List.mem_filter.1 hb).2
  · intro a ha b hb
    have hax : slt a x := hp a (List.mem_filter.1 ha).2
    rcases List.mem_cons.1 hb with h | h
    · rw [h]; exact hax
    · exact slt_trans hax (hq b (List.mem_filter.1 h).2)

/-! ## The claims about the merge goroutine -/

/-- C1: for a strictly ascending `order`, any mapping, and an Add whose new username is
not in `order`, an Update whose new username is not in `order` or equals the old one, or
any Delete, the merge goroutine sends lines whose usernames are strictly ascending under
the byte-wise string order. -/
theorem merge_output_strictly_ascending (order : List GoString) (m : CredMap) (op : OpSpec)
    (hs : List.Chain' slt order)
    (hop : (∃ new, op = opAdd new ∧ new.Username ∉ order) ∨
      (∃ old new, op = opUpdate old new ∧
        (new.Username ∉ order ∨ new.Username = old.Username)) ∨
      (∃ old, op = opDelete old)) :
    ∃ recs, mergeRecords order m op = .ok recs ∧
      mergeLines order m op = .ok (recs.map encode) ∧
      List.Pairwise slt (recs.map Prod.fst) := by
  have hp : List.Pairwise slt order := (chain_slt_iff_pairwise order).1 hs
  rcases hop with ⟨new, rfl, hn⟩ | ⟨old, new, rfl, hn⟩ | ⟨old, rfl⟩
  · have h := mergeLoop_add m new order hp hn
    refine ⟨_, h, mergeLines_of_records h, ?_⟩
    apply pairwise_insert_between order m _ _ _ _ hp
    · intro u hu; simpa using hu
    · intro u hu; simpa using hu
  · have h := mergeLoop_update m old new order hp hn.symm
    refine ⟨_, h, mergeLines_of_records h, ?_⟩
    apply pairwise_insert_between order m _ _ _ _ hp
    · intro u hu
      have := of_decide_eq_true hu
      exact this.2
    · intro u hu
      have := of_decide_eq_true hu
      exact this.2
  · have h := mergeLoop_delete m old order (pairwise_slt_nodup hp)
    refine ⟨_, h, mergeLines_of_records h, ?_⟩
    rw [map_fst_recOf]
    exact hp.filter _

theorem merge_output_strictly_ascending_witness :
    List.Chain' slt [ascii "alice", ascii "carol"] ∧
    ∃ recs, mergeRecords [ascii "alice", ascii "carol"] storeAliceCarol
        (opAdd ⟨ascii "bob", ascii "h2"⟩) = .ok recs ∧
      mergeLines [ascii "alice", ascii "carol"] storeAliceCarol
        (opAdd ⟨ascii "bob", ascii "h2"⟩) = .ok (recs.map encode) ∧
      List.Pairwise slt (recs.map Prod.fst) :=
  ⟨List.chain'_pair.2 (by decide),
    merge_output_strictly_ascending [ascii "alice", ascii "carol"] storeAliceCarol
      (opAdd ⟨ascii "bob", ascii "h2"⟩) (List.chain'_pair.2 (by decide)) (Or.inl ⟨_, rfl, by decide⟩)⟩

/-- C2: for a strictly ascending `order` and an Add whose new username is not in `order`,
the merge goroutine sends the lines of the existing usernames below the new one, then the
line of the new record, then the lines of the existing usernames above it; the new line
is last when every existing username is below it and is the only line when `order` is
empty. Store `alice:h1, carol:h3` with Add `bob:h2` gives `alice,h1 / bob,h2 / carol,h3`,
and store `alice:h1` with Add `zack:h9` gives `alice,h1 / zack,h9`. -/
theorem add_merge_output :
    (∀ (order : List GoString) (m : CredMap) (new : UserCred),
      List.Chain' slt order → new.Username ∉ order →
      mergeLines order m (opAdd new) =
          .ok ((order.filter (fun u => decide (slt u new.Username))).map (lineOf m) ++
            Sprintf new.Username new.Password ::
              (order.filter (fun u => decide (slt new.Username u))).map (lineOf m)) ∧
        ((∀ u ∈ order, slt u new.Username) →
          mergeLines order m (opAdd new) =
            .ok (order.map (lineOf m) ++ [Sprintf new.Username new.Password]))) ∧
    (∀ (m : CredMap) (new : UserCred),
      mergeLines [] m (opAdd new) = .ok [Sprintf new.Username new.Password]) ∧
    mergeLines [ascii "alice", ascii "carol"] storeAliceCarol (opAdd ⟨ascii "bob", ascii "h2"⟩) =
      .ok [ascii "alice,h1\n", ascii "bob,h2\n", ascii "carol,h3\n"] ∧
    mergeLines [ascii "alice"] storeAlice (opAdd ⟨ascii "zack", ascii "h9"⟩) =
      .ok [ascii "alice,h1\n", ascii "zack,h9\n"] := by
  refine ⟨?_, ?_, by decide, by decide⟩
  · intro order m new hs hn
    have hp : List.Pairwise slt order := (chain_slt_iff_pairwise order).1 hs
    have h := mergeLines_of_records (mergeLoop_add m new order hp hn)
    rw [List.map_append, List.map_cons, map_encode_recOf, map_encode_recOf] at h
    refine ⟨h, ?_⟩
    intro hall
    have f1 : order.filter (fun u => decide (slt u new.Username)) = order := by
      rw [List.filter_eq_self]
      intro v hv; simpa using hall v hv
    have f2 : order.filter (fun u => decide (slt new.Username u)) = [] := by
      rw [List.filter_eq_nil_iff]
      intro v hv; simpa using slt_asymm (hall v hv)
    rw [h, f1, f2]
    rfl
  · intro m new
    rfl

theorem add_merge_output_witness :
    List.Chain' slt [ascii "alice", ascii "carol"] ∧
    ascii "bob" ∉ [ascii "alice", ascii "carol"] ∧
    mergeLines [ascii "alice", ascii "carol"] storeAliceCarol (opAdd ⟨ascii "bob", ascii "h2"⟩) =
      .ok (([ascii "alice", ascii "carol"].filter
          (fun u => decide (slt u (ascii "bob")))).map (lineOf storeAliceCarol) ++
        Sprintf (ascii "bob") (ascii "h2") ::
          ([ascii "alice", ascii "carol"].filter
            (fun u => decide (slt (ascii "bob") u))).map (lineOf storeAliceCarol)) :=
  ⟨List.chain'_pair.2 (by decide), by decide,
    (add_merge_output.1 [ascii "alice", ascii "carol"] storeAliceCarol
      ⟨ascii "bob", ascii "h2"⟩ (List.chain'_pair.2 (by decide)) (by decide)).1⟩

/-- C3: for a strictly ascending `order` and an Update whose new username equals the old
one or is not in `order`, the merge goroutine sends the sorted insertion of the new record
into the existing records without the old username: the records sent are the new record
and the existing records other than the old one, each once and with its mapped hash, the
usernames are strictly ascending, and the old username is carried only when the new
username equals it. Store `alice:h1, bob:h2` with Update old `alice/h1`, new `aaron/h7`
gives `aaron,h7 / bob,h2`. -/
theorem update_merge_output :
    (∀ (order : List GoString) (m : CredMap) (old new : UserCred),
      List.Chain' slt order →
      (new.Username = old.Username ∨ new.Username ∉ order) →
      ∃ recs,
        recs = (order.filter
              (fun u => decide (u ≠ old.Username ∧ slt u new.Username))).map (recOf m) ++
            (new.Username, new.Password) ::
              (order.filter
                (fun u => decide (u ≠ old.Username ∧ slt new.Username u))).map (recOf m) ∧
        mergeRecords order m (opUpdate old new) = .ok recs ∧
        mergeLines order m (opUpdate old new) = .ok (recs.map encode) ∧
        List.Pairwise slt (recs.map Prod.fst) ∧
        List.Perm recs ((new.Username, new.Password) ::
          (order.filter (fun u => decide (u ≠ old.Username))).map (recOf m)) ∧
        (∀ r ∈ recs, r.1 = old.Username → new.Username = old.Username)) ∧
    mergeLines [ascii "alice", ascii "bob"] storeAliceBob
        (opUpdate ⟨ascii "alice", ascii "h1"⟩ ⟨ascii "aaron", ascii "h7"⟩) =
      .ok [ascii "aaron,h7\n", ascii "bob,h2\n"] := by
  refine ⟨?_, by decide⟩
  intro order m old new hs hn
  have hp : List.Pairwise slt order := (chain_slt_iff_pairwise order).1 hs
  have h := mergeLoop_update m old new order hp hn
  refine ⟨_, rfl, h, mergeLines_of_records h, ?_, ?_, ?_⟩
  · apply pairwise_insert_between order m _ _ _ _ hp
    · intro u hu; exact (of_decide_eq_true hu).2
    · intro u hu; exact (of_decide_eq_true hu).2
  · refine List.perm_middle.trans (List.Perm.cons _ ?_)
    rw [← List.map_append]
    apply List.Perm.map
    have e1 : order.filter (fun u => decide (u ≠ old.Username ∧ slt u new.Username)) =
        (order.filter (fun u => decide (u ≠ old.Username))).filter
          (fun u => decide (slt u new.Username)) := by
      rw [List.filter_filter]
      apply List.filter_congr
      intro u _
      by_cases h1 : u = old.Username <;> by_cases h2 : slt u new.Username <;> simp [h1, h2]
    have e2 : order.filter (fun u => decide (u ≠ old.Username ∧ slt new.Username u)) =
        (order.filter (fun u => decide (u ≠ old.Username))).filter
          (fun u => !decide (slt u new.Username)) := by
      rw [List.filter_filter]
      apply List.filter_congr
      intro u hu
      by_cases h1 : u = old.Username
      · simp [h1]
      · have hne : u ≠ new.Username := by
          rcases hn with h3 | h3
          · rw [h3]; exact h1
          · intro e; exact h3 (e ▸ hu)
        rcases slt_trichotomy u new.Username with h2 | h2 | h2
        · simp [h1, h2, slt_asymm h2]
        · exact absurd h2 hne
        · simp [h1, h2, slt_asymm h2]
    rw [e1, e2]
    exact List.filter_append_perm _ _
  · intro r hr hro
    rcases List.mem_append.1 hr with h1 | h1
    · obtain ⟨u, hu, rfl⟩ := List.mem_map.1 h1
      have := (of_decide_eq_true (List.mem_filter.1 hu).2).1
      exact absurd hro this
    · rcases List.mem_cons.1 h1 with h2 | h2
      · rw [h2] at hro; exact hro
      · obtain ⟨u, hu, rfl⟩ := List.mem_map.1 h2
        have := (of_decide_eq_true (List.mem_filter.1 hu).2).1
        exact absurd hro this

theorem update_merge_output_witness :
    List.Chain' slt [ascii "alice", ascii "bob"] ∧
    ascii "aaron" ∉ [ascii "alice", ascii "bob"] ∧
    ∃ recs,
      recs = ([ascii "alice", ascii "bob"].filter
            (fun u => decide (u ≠ ascii "alice" ∧ slt u (ascii "aaron")))).map
              (recOf storeAliceBob) ++
          (ascii "aaron", ascii "h7") ::
            ([ascii "alice", ascii "bob"].filter
              (fun u => decide (u ≠ ascii "alice" ∧ slt (ascii "aaron") u))).map
                (recOf storeAliceBob) ∧
      mergeRecords [ascii "alice", ascii "bob"] storeAliceBob
        (opUpdate ⟨ascii "alice", ascii "h1"⟩ ⟨ascii "aaron", ascii "h7"⟩) = .ok recs ∧
      mergeLines [ascii "alice", ascii "bob"] storeAliceBob
        (opUpdate ⟨ascii "alice", ascii "h1"⟩ ⟨ascii "aaron", ascii "h7"⟩) =
          .ok (recs.map encode) ∧
      List.Pairwise slt (recs.map Prod.fst) ∧
      List.Perm recs ((ascii "aaron", ascii "h7") ::
        ([ascii "alice", ascii "bob"].filter
          (fun u => decide (u ≠ ascii "alice"))).map (recOf storeAliceBob)) ∧
      (∀ r ∈ recs, r.1 = ascii "alice" → ascii "aaron" = ascii "alice") :=
  ⟨List.chain'_pair.2 (by decide), by decide,
    update_merge_output.1 [ascii "alice", ascii "bob"] storeAliceBob
      ⟨ascii "alice", ascii "h1"⟩ ⟨ascii "aaron", ascii "h7"⟩ (List.chain'_pair.2 (by decide))
      (Or.inr (by decide))⟩

/-- C4: for a duplicate-free `order` and a Delete, the merge goroutine sends exactly the
lines of the existing usernames other than the old one, in the original order and with
no replacement line; when the old username is not in `order` it sends the line of every
existing record. Store `alice:h1, bob:h2` with Delete old `bob` gives `alice,h1`. -/
theorem delete_merge_output :
    (∀ (order : List GoString) (m : CredMap) (old : UserCred), order.Nodup →
      mergeLines order m (opDelete old) =
          .ok ((order.filter (fun u => decide (u ≠ old.Username))).map (lineOf m)) ∧
        (old.Username ∉ order →
          mergeLines order m (opDelete old) = .ok (order.map (lineOf m)))) ∧
    mergeLines [ascii "alice", ascii "bob"] storeAliceBob (opDelete ⟨ascii "bob", ascii "h2"⟩) =
      .ok [ascii "alice,h1\n"] := by
  refine ⟨?_, by decide⟩
  intro order m old hd
  have h := mergeLines_of_records (mergeLoop_delete m old order hd)
  rw [map_encode_recOf] at h
  refine ⟨h, ?_⟩
  intro hno
  have f : order.filter (fun u => decide (u ≠ old.Username)) = order := by
    rw [List.filter_eq_self]
    intro v hv
    have : v ≠ old.Username := fun e => hno (e ▸ hv)
    simpa using this
  rw [h, f]

theorem delete_merge_output_witness :
    [ascii "alice", ascii "bob"].Nodup ∧
    mergeLines [ascii "alice", ascii "bob"] storeAliceBob (opDelete ⟨ascii "bob", ascii "h2"⟩) =
      .ok (([ascii "alice", ascii "bob"].filter
        (fun u => decide (u ≠ ascii "bob"))).map (lineOf storeAliceBob)) :=
  ⟨by decide,
    (delete_merge_output.1 [ascii "alice", ascii "bob"] storeAliceBob
      ⟨ascii "bob", ascii "h2"⟩ (by decide)).1⟩

/-! ## The claims about the load -/

/-- C7, amended: for every record whose username and passwordHash contain no comma and no
newline, whose passwordHash does not end in a carriage return, and whose line without
the newline is shorter than the scanner's token limit, reading the written line
`"%s,%s\n"` back the way `ParseRecordToMap` does yields exactly one text, which splits
on `","` into exactly the original username and passwordHash, and the load succeeds with
that one record. -/
theorem encode_decode_roundtrip (u h : GoString)
    (hu : comma ∉ u) (hh : comma ∉ h) (hun : newline ∉ u) (hhn : newline ∉ h)
    (hcr : h.getLast? ≠ some cr) (hlen : u.length + 1 + h.length < maxScanTokenSize) :
    Scanner (Sprintf u h) = ([u ++ comma :: h], false) ∧
      Split (u ++ comma :: h) = [u, h] ∧
      ∀ old, ParseRecordToMap (Sprintf u h) emptyMap old = .ok (emptyMap.set u h, [u]) :=
  ParseRecordToMap_one_record u h hu hh hun hhn hcr hlen

theorem encode_decode_roundtrip_witness :
    comma ∉ ascii "alice" ∧ comma ∉ ascii "h1" ∧
    newline ∉ ascii "alice" ∧ newline ∉ ascii "h1" ∧
    (ascii "h1").getLast? ≠ some cr ∧
    (ascii "alice").length + 1 + (ascii "h1").length < maxScanTokenSize ∧
    Scanner (Sprintf (ascii "alice") (ascii "h1")) =
      ([ascii "alice" ++ comma :: ascii "h1"], false) ∧
    Split (ascii "alice" ++ comma :: ascii "h1") = [ascii "alice", ascii "h1"] ∧
    ∀ old, ParseRecordToMap (Sprintf (ascii "alice") (ascii "h1")) emptyMap old =
      .ok (emptyMap.set (ascii "alice") (ascii "h1"), [ascii "alice"]) :=
  ⟨by decide, by decide, by decide, by decide, by decide, by decide,
    encode_decode_roundtrip (ascii "alice") (ascii "h1") (by decide) (by decide) (by decide)
      (by decide) (by decide) (by decide)⟩

/-- C7, counterexample: the username `a\nb` and the passwordHash `h1` contain no comma, but
the written line is read back as the two texts `a` and `b,h1`, and the load is aborted
at the first of them. -/
theorem encode_decode_newline_counterexample :
    comma ∉ ascii "a\nb" ∧ comma ∉ ascii "h1" ∧
    Scanner (Sprintf (ascii "a\nb") (ascii "h1")) = ([ascii "a", ascii "b,h1"], false) ∧
    Split (ascii "a") = [ascii "a"] ∧
    (ParseRecordToMap (Sprintf (ascii "a\nb") (ascii "h1")) emptyMap []).map Prod.snd =
      .error .corrupt := by
  refine ⟨by decide, by decide, by decide, by decide, by decide⟩

/-- C8, amended: `ParseRecordToMap` fails if and only if some stored line does not split on
`","` into exactly two fields, that is, holds zero commas or two or more, or is
`maxScanTokenSize` bytes or longer; a file in which every line holds exactly one comma
and is shorter than that always loads; and a failed load makes `DumpDataToFile` end
there, with no merge and no write. -/
theorem load_fails_iff (file : GoString) (credMap : CredMap) (old : List GoString) :
    ((∃ e, ParseRecordToMap file credMap old = .error e) ↔
      ∃ l ∈ rawLines file, maxScanTokenSize ≤ l.length ∨ (Split l).length ≠ 2) ∧
    (∀ l, (Split l).length ≠ 2 ↔ (l.count comma = 0 ∨ 2 ≤ l.count comma)) ∧
    ((∀ l ∈ rawLines file, l.length < maxScanTokenSize ∧ l.count comma = 1) →
      ∃ r, ParseRecordToMap file credMap old = .ok r) ∧
    (∀ e opSPec, ParseRecordToMap file emptyMap old = .error e →
      DumpDataToFile file old opSPec = .error e) := by
  refine ⟨ParseRecordToMap_error_iff file credMap old, ?_, ?_, ?_⟩
  · intro l
    rw [Split_length]; omega
  · intro h
    exact ⟨_, ParseRecordToMap_ok file credMap old
      (fun l hl => ⟨(h l hl).1, (Split_length_eq_two_iff l).2 (h l hl).2⟩)⟩
  · intro e opSPec he
    unfold DumpDataToFile
    rw [he]

theorem load_fails_iff_witness :
    (∀ l ∈ rawLines (ascii "alice,h1\nbob,h2\n"),
      l.length < maxScanTokenSize ∧ l.count comma = 1) ∧
    ∃ r, ParseRecordToMap (ascii "alice,h1\nbob,h2\n") emptyMap [] = .ok r :=
  ⟨by decide,
    (load_fails_iff (ascii "alice,h1\nbob,h2\n") emptyMap []).2.2.1 (by decide)⟩

/-- C8, counterexample: the file `longLine` is one stored line holding exactly one comma,
and its load fails with the scanner's error. -/
theorem load_long_line_counterexample :
    (∀ l ∈ rawLines longLine, l.count comma = 1 ∧ (Split l).length = 2) ∧
    ParseRecordToMap longLine emptyMap [] = .error .scanner := by
  constructor
  · intro l hl
    rw [longLine_rawLines, List.mem_singleton] at hl
    subst hl
    exact ⟨longLine_count, (Split_length_eq_two_iff _).2 longLine_count⟩
  · have hlen : maxScanTokenSize ≤ longLine.length := by
      rw [longLine_length]; decide
    exact ParseRecordToMap_too_long longLine emptyMap [] longLine_rawLines hlen

/-- C10, amended: for every file whose lines are all accepted, `ParseRecordToMap` on a
fresh map returns; `unameSlc` is then sorted ascending, holds the username of every
stored line once per line (so it is free of duplicates exactly when no two stored lines
share a username, and then strictly ascending), and its elements are exactly the keys
of the filled map; each key is mapped to the hash on the last stored line with that
username, which is the hash on its line when usernames are not repeated; and the value
of `unameSlc` before the call has no effect. -/
theorem load_snapshot (file : GoString) (old : List GoString)
    (h : ∀ l ∈ rawLines file, l.length < maxScanTokenSize ∧ (Split l).length = 2) :
    ∃ m order, ParseRecordToMap file emptyMap old = .ok (m, order) ∧
      List.Pairwise sle order ∧
      List.Perm order ((storedRecords file).map Prod.fst) ∧
      (order.Nodup ↔ ((storedRecords file).map Prod.fst).Nodup) ∧
      (((storedRecords file).map Prod.fst).Nodup → List.Pairwise slt order) ∧
      (∀ u, u ∈ order ↔ (m u).isSome = true) ∧
      (∀ u, m u = lastHash (storedRecords file) u) ∧
      (∀ u hsh, m u = some hsh → (u, hsh) ∈ storedRecords file) ∧
      (((storedRecords file).map Prod.fst).Nodup →
        ∀ r ∈ storedRecords file, m r.1 = some r.2) ∧
      ParseRecordToMap file emptyMap old = ParseRecordToMap file emptyMap [] := by
  have hm : ∀ u, setAll (storedRecords file) emptyMap u = lastHash (storedRecords file) u := by
    intro u
    rw [setAll_apply]
    cases lastHash (storedRecords file) u <;> rfl
  obtain ⟨hsorted, hperm⟩ := sortStep_sorted_perm ((storedRecords file).map Prod.fst)
  refine ⟨_, _, ParseRecordToMap_ok file emptyMap old h, hsorted, hperm, hperm.nodup_iff, ?_,
    ?_, hm, ?_, ?_, rfl⟩
  · intro hd
    have hnd := hperm.nodup_iff.2 hd
    rw [List.pairwise_iff_forall_sublist]
    intro a b hab
    have hle : sle a b := List.pairwise_iff_forall_sublist.1 hsorted hab
    have hne : a ≠ b := List.pairwise_iff_forall_sublist.1 hnd hab
    rcases (sle_iff a b).1 hle with h1 | h1
    · exact h1
    · exact absurd h1 hne
  · intro u
    rw [hperm.mem_iff, hm, lastHash_isSome_iff]
  · intro u hsh hu
    rw [hm] at hu
    exact lastHash_mem _ _ _ hu
  · intro hd r hr
    rw [hm]
    exact lastHash_of_nodup _ hd r hr

theorem load_snapshot_witness :
    (∀ l ∈ rawLines (ascii "bob,h2\nalice,h1\n"),
      l.length < maxScanTokenSize ∧ (Split l).length = 2) ∧
    (ParseRecordToMap (ascii "bob,h2\nalice,h1\n") emptyMap [ascii "zack"]).map Prod.snd =
      .ok [ascii "alice", ascii "bob"] ∧
    ∃ m order, ParseRecordToMap (ascii "bob,h2\nalice,h1\n") emptyMap [ascii "zack"] =
        .ok (m, order) ∧
      List.Pairwise sle order ∧
      List.Perm order ((storedRecords (ascii "bob,h2\nalice,h1\n")).map Prod.fst) ∧
      (order.Nodup ↔ ((storedRecords (ascii "bob,h2\nalice,h1\n")).map Prod.fst).Nodup) ∧
      (((storedRecords (ascii "bob,h2\nalice,h1\n")).map Prod.fst).Nodup →
        List.Pairwise slt order) ∧
      (∀ u, u ∈ order ↔ (m u).isSome = true) ∧
      (∀ u, m u = lastHash (storedRecords (ascii "bob,h2\nalice,h1\n")) u) ∧
      (∀ u hsh, m u = some hsh → (u, hsh) ∈ storedRecords (ascii "bob,h2\nalice,h1\n")) ∧
      (((storedRecords (ascii "bob,h2\nalice,h1\n")).map Prod.fst).Nodup →
        ∀ r ∈ storedRecords (ascii "bob,h2\nalice,h1\n"), m r.1 = some r.2) ∧
      ParseRecordToMap (ascii "bob,h2\nalice,h1\n") emptyMap [ascii "zack"] =
        ParseRecordToMap (ascii "bob,h2\nalice,h1\n") emptyMap [] :=
  ⟨by decide, by decide,
    load_snapshot (ascii "bob,h2\nalice,h1\n") [ascii "zack"] (by decide)⟩

/-- C10, counterexample: the file of the two lines `bob,h1` and `bob,h2` is accepted, and
`unameSlc` after the load is `bob, bob`, which repeats a username; the map holds `h2`
for it. -/
theorem load_duplicate_counterexample :
    (∀ l ∈ rawLines (ascii "bob,h1\nbob,h2\n"),
      l.length < maxScanTokenSize ∧ (Split l).length = 2) ∧
    (ParseRecordToMap (ascii "bob,h1\nbob,h2\n") emptyMap []).map Prod.snd =
      .ok [ascii "bob", ascii "bob"] ∧
    ¬ [ascii "bob", ascii "bob"].Nodup ∧
    (ParseRecordToMap (ascii "bob,h1\nbob,h2\n") emptyMap []).map
      (fun r => r.1 (ascii "bob")) = .ok (some (ascii "h2")) := by
  refine ⟨by decide, by decide, by decide, by decide⟩

/-! ## The claims about the handshake -/

theorem ValidateUser_wrong_password (sha256 : GoString → GoString) (credMap : CredMap)
    (userName userPass stored : GoString) (hk : credMap userName = some stored)
    (hne : stored ≠ sha256 userPass) :
    ValidateUser sha256 credMap userName userPass = (⟨userName, sha256 userPass⟩, false) := by
  have h0 : ¬ Compare stored (sha256 userPass) = 0 := fun h => hne ((Compare_eq_zero_iff _ _).1 h)
  simp [ValidateUser, hk, h0]

/-- C5, amended: when the supplied username is a key of the mapping and the digest of the
supplied password differs from the stored hash, `DeleteUser` and `UpdateUser` report
`false` on the status channel, leave the mapping unchanged and start no
`DumpDataToFile`, so the file is not written; `AddUser`, when the stored hash is not
empty, reports `true`, leaves the mapping unchanged and starts no `DumpDataToFile`. -/
theorem wrong_password_outcome (sha256 : GoString → GoString) (credMap : CredMap)
    (userName userPass stored : GoString) (hk : credMap userName = some stored)
    (hne : stored ≠ sha256 userPass) :
    ((handshake sha256 credMap .delete userName userPass).signals = [false] ∧
      (handshake sha256 credMap .delete userName userPass).credMap = credMap ∧
      (handshake sha256 credMap .delete userName userPass).dump = none ∧
      ∀ file old, persist file old (handshake sha256 credMap .delete userName userPass) =
        .ok (file, [false])) ∧
    (∀ newUserName newPassword,
      (handshake sha256 credMap (.update newUserName newPassword) userName userPass).signals =
        [false] ∧
      (handshake sha256 credMap (.update newUserName newPassword) userName userPass).credMap =
        credMap ∧
      (handshake sha256 credMap (.update newUserName newPassword) userName userPass).dump =
        none ∧
      ∀ file old, persist file old
          (handshake sha256 credMap (.update newUserName newPassword) userName userPass) =
        .ok (file, [false])) ∧
    (stored ≠ [] →
      (handshake sha256 credMap .add userName userPass).signals = [true] ∧
      (handshake sha256 credMap .add userName userPass).credMap = credMap ∧
      (handshake sha256 credMap .add userName userPass).dump = none ∧
      ∀ file old, persist file old (handshake sha256 credMap .add userName userPass) =
        .ok (file, [true])) := by
  have hv := ValidateUser_wrong_password sha256 credMap userName userPass stored hk hne
  refine ⟨?_, ?_, ?_⟩
  · simp [handshake, hv, DeleteUser, persist]
  · intro newUserName newPassword
    simp [handshake, hv, UpdateUser, persist]
  · intro hs
    have hi : ¬ credMap.index userName = [] := by
      simp [CredMap.index, hk, hs]
    simp [handshake, hv, AddUser, persist, hi]

theorem wrong_password_outcome_witness :
    storeAliceBob (ascii "bob") = some (ascii "h2") ∧
    ascii "h2" ≠ digestOfPassword ∧
    (handshake (fun _ => digestOfPassword) storeAliceBob .delete (ascii "bob")
      (ascii "password")).signals = [false] ∧
    (handshake (fun _ => digestOfPassword) storeAliceBob .delete (ascii "bob")
      (ascii "password")).dump = none :=
  ⟨by decide, by decide,
    (wrong_password_outcome (fun _ => digestOfPassword) storeAliceBob (ascii "bob")
      (ascii "password") (ascii "h2") (by decide) (by decide)).1.1,
    (wrong_password_outcome (fun _ => digestOfPassword) storeAliceBob (ascii "bob")
      (ascii "password") (ascii "h2") (by decide) (by decide)).1.2.2.1⟩

/-- C5, counterexample: with the store `alice:h1, bob:h2`, the username `bob` and the
password `password`, whose digest is not `h2`, the selected `AddUser` reports `true` on
the status channel, not `false`. -/
theorem wrong_password_add_counterexample :
    storeAliceBob (ascii "bob") = some (ascii "h2") ∧
    ascii "h2" ≠ digestOfPassword ∧
    (ValidateUser (fun _ => digestOfPassword) storeAliceBob (ascii "bob")
      (ascii "password")).2 = false ∧
    (handshake (fun _ => digestOfPassword) storeAliceBob .add (ascii "bob")
      (ascii "password")).signals = [true] := by
  refine ⟨by decide, by decide, by decide, by decide⟩

/-- C6: for a successfully validated user, an Update whose new username is a key of the
mapping and differs from the validated username reports `true` and then `false`, so
failure is its final status; the mapping is unchanged and no change operation is
submitted to `DumpDataToFile`, so the record file keeps its content. -/
theorem update_conflict_rejected (sha256 : GoString → GoString) (credMap : CredMap)
    (userName userPass newUserName newPassword : GoString)
    (hv : (ValidateUser sha256 credMap userName userPass).2 = true)
    (hk : (credMap newUserName).isSome = true) (hne : newUserName ≠ userName) :
    (handshake sha256 credMap (.update newUserName newPassword) userName userPass).signals =
      [true, false] ∧
    (handshake sha256 credMap (.update newUserName newPassword) userName userPass).signals.getLast?
      = some false ∧
    (handshake sha256 credMap (.update newUserName newPassword) userName userPass).credMap =
      credMap ∧
    (handshake sha256 credMap (.update newUserName newPassword) userName userPass).dump =
      none ∧
    ∀ file old, persist file old
        (handshake sha256 credMap (.update newUserName newPassword) userName userPass) =
      .ok (file, [true, false]) := by
  have hu : (ValidateUser sha256 credMap userName userPass).1.Username = userName := by
    simp only [ValidateUser]
    split
    · split <;> rfl
    · rfl
  have h0 : ¬ Compare newUserName userName = 0 := fun h => hne ((Compare_eq_zero_iff _ _).1 h)
  simp [handshake, UpdateUser, hv, hu, hk, h0, persist]

theorem update_conflict_rejected_witness :
    (ValidateUser (fun _ => digestOfPassword) storeHashed (ascii "alice")
      (ascii "password")).2 = true ∧
    (storeHashed (ascii "bob")).isSome = true ∧
    ascii "bob" ≠ ascii "alice" ∧
    (handshake (fun _ => digestOfPassword) storeHashed (.update (ascii "bob") (ascii "pw"))
      (ascii "alice") (ascii "password")).signals = [true, false] :=
  ⟨by decide, by decide, by decide,
    (update_conflict_rejected (fun _ => digestOfPassword) storeHashed (ascii "alice")
      (ascii "password") (ascii "bob") (ascii "pw") (by decide) (by decide) (by decide)).1⟩

/-- C9, the code at the failing input: with the record file of the one line `bob,`, whose
hash field is empty, `AddUser` for the username `bob` and any password with a non-empty
digest changes the mapping at `bob`, submits an Add to `DumpDataToFile`, and the file
is rewritten with two lines for `bob`. -/
theorem add_user_empty_hash (sha256 : GoString → GoString) (userPass : GoString)
    (hd : sha256 userPass ≠ []) :
    (ParseRecordToMap (ascii "bob,\n") emptyMap []).map
        (fun r => (r.1 (ascii "bob"), r.2)) = .ok (some [], [ascii "bob"]) ∧
    storeBobEmpty (ascii "bob") = some [] ∧
    (handshake sha256 storeBobEmpty .add (ascii "bob") userPass).dump =
      some (opAdd ⟨ascii "bob", sha256 userPass⟩) ∧
    (handshake sha256 storeBobEmpty .add (ascii "bob") userPass).credMap (ascii "bob") =
      some (sha256 userPass) ∧
    (handshake sha256 storeBobEmpty .add (ascii "bob") userPass).credMap ≠ storeBobEmpty ∧
    persist (ascii "bob,\n") [] (handshake sha256 storeBobEmpty .add (ascii "bob") userPass) =
      .ok (ascii "bob,\n" ++ Sprintf (ascii "bob") (sha256 userPass), [true]) := by
  have hk : storeBobEmpty (ascii "bob") = some [] := by decide
  have hv := ValidateUser_wrong_password sha256 storeBobEmpty (ascii "bob") userPass [] hk
    (fun e => hd e.symm)
  have hi : storeBobEmpty.index (ascii "bob") = [] := by decide
  have hh : handshake sha256 storeBobEmpty .add (ascii "bob") userPass =
      ⟨storeBobEmpty.set (ascii "bob") (sha256 userPass), ⟨ascii "bob", sha256 userPass⟩, [],
        some (opAdd ⟨ascii "bob", sha256 userPass⟩)⟩ := by
    simp [handshake, hv, AddUser, hi, opAdd]
  have hset : (storeBobEmpty.set (ascii "bob") (sha256 userPass)) (ascii "bob") =
      some (sha256 userPass) := by simp [CredMap.set]
  have hload : ParseRecordToMap (ascii "bob,\n") emptyMap [] =
      .ok (emptyMap.set (ascii "bob") [], [ascii "bob"]) :=
    (ParseRecordToMap_one_record (ascii "bob") [] (by decide) (by decide) (by decide)
      (by decide) (by decide) (by decide)).2.2 []
  refine ⟨by decide, hk, ?_, ?_, ?_, ?_⟩
  · rw [hh]
  · rw [hh]; exact hset
  · rw [hh]
    intro e
    have h2 := congrFun e (ascii "bob")
    simp only [hset, hk, Option.some.injEq] at h2
    exact hd h2
  · rw [hh]
    have hidx : (emptyMap.set (ascii "bob") []).index (ascii "bob") = [] := by decide
    have hm : mergeLines [ascii "bob"] (emptyMap.set (ascii "bob") [])
        (opAdd ⟨ascii "bob", sha256 userPass⟩) =
        .ok [ascii "bob,\n", Sprintf (ascii "bob") (sha256 userPass)] := by
      have hline : Sprintf (ascii "bob") [] = ascii "bob,\n" := by decide
      simp [mergeLines, mergeRecords, mergeLoop, opAdd, Compare_self, Except.map, encode, hidx,
        hline]
    simp only [persist, DumpDataToFile, hload, hm]
    simp

theorem add_user_empty_hash_witness :
    digestOfPassword ≠ [] ∧
    storeBobEmpty (ascii "bob") = some [] ∧
    (handshake (fun _ => digestOfPassword) storeBobEmpty .add (ascii "bob")
      (ascii "password")).dump = some (opAdd ⟨ascii "bob", digestOfPassword⟩) ∧
    persist (ascii "bob,\n") []
        (handshake (fun _ => digestOfPassword) storeBobEmpty .add (ascii "bob")
          (ascii "password")) =
      .ok (ascii "bob,\n" ++ Sprintf (ascii "bob") digestOfPassword, [true]) :=
  ⟨by decide, by decide,
    (add_user_empty_hash (fun _ => digestOfPassword) (ascii "password") (by decide)).2.2.1,
    (add_user_empty_hash (fun _ => digestOfPassword) (ascii "password")
      (by decide)).2.2.2.2.2⟩

end UserMgmtOp
